import Mathlib

/-!
Shallow embedding of `packages/core/src/utils/task-pool.ts`.

The pool processes tasks strictly sequentially on a single-threaded event
loop; its bookkeeping steps run without intervening suspension points, so
they are modelled as atomic state transformers on a `TaskPool` record.
`processNextTask` is split at its single suspension point
(`await this.task(...)`) into `startNext` (the synchronous prefix that
claims the processing flag and dequeues the head) and `finishCurrent`
(the continuation that records the outcome).  Wall-clock reads
(`Date.now()`, `new Date()`) are passed in explicitly as natural-number
millisecond timestamps; durations are integers (JS subtraction of dates).
-/

/-- Status of a task run (enum `TaskRunStatus`). -/
inductive TaskRunStatus where
  | pending
  | running
  | completed
  | failed
deriving DecidableEq, Repr

/-- A JS `Error` object, reduced to the only field the pool touches. -/
structure JsError where
  message : String
deriving DecidableEq, Repr

/-- A value thrown or rejected by the work function: either a real `Error`
object or any other JS value, kept as its `String(value)` representation. -/
inductive Thrown where
  | errObj (e : JsError)
  | nonError (strRep : String)
deriving DecidableEq, Repr

/-- Models `error instanceof Error ? error : new Error(String(error))`
(task-pool.ts line 285). -/
def normalizeError : Thrown → JsError
  | .errObj e => e
  | .nonError s => { message := s }

/-- Record of a task execution (interface `TaskRun`). -/
structure TaskRun (P R : Type) where
  id : String
  params : P
  status : TaskRunStatus
  result : Option R := none
  error : Option JsError := none
  startedAt : Option Nat := none
  completedAt : Option Nat := none
  duration : Option Int := none
  queueTime : Option Int := none
  queuedAt : Nat
deriving DecidableEq, Repr

/-- Outcome of one invocation of the work function: the promise either
resolves with a result or rejects with a thrown value. -/
inductive TaskOutcome (R : Type) where
  | success (result : R)
  | failure (thrown : Thrown)
deriving DecidableEq, Repr

/-- Pool statistics (interface `PoolStats`).  `averageDurationMs` is an
integer because the source applies `Math.round`. -/
structure PoolStats where
  totalRuns : Nat
  completedRuns : Nat
  failedRuns : Nat
  currentQueueSize : Nat
  isRunning : Bool
  averageDurationMs : Int
deriving DecidableEq, Repr

/-- Private state of `TaskPool`.  `maxHistorySize` is an `Int` because the
constructor stores whatever JS number the caller passed, without
validation. -/
structure TaskPool (P R : Type) where
  maxHistorySize : Int
  queue : List (TaskRun P R) := []
  history : List (TaskRun P R) := []
  currentRun : Option (TaskRun P R) := none
  isProcessing : Bool := false
  isShuttingDown : Bool := false
  runCounter : Nat := 0
deriving DecidableEq, Repr

/-- The constructor: `maxHistorySize: options.maxHistorySize ?? 100`
(task-pool.ts lines 140-145).  No validation is performed. -/
def mkTaskPool (P R : Type) (optMaxHistorySize : Option Int) : TaskPool P R :=
  { maxHistorySize := optMaxHistorySize.getD 100 }

/-- Models `generateRunId` (lines 321-325): the counter has already been
incremented; the id interpolates the timestamp and the counter. -/
def generateRunId (timestamp counter : Nat) : String :=
  "run-" ++ Nat.repr timestamp ++ "-" ++ Nat.repr counter

/-- Result of trimming the history: `history.drop (history.length - m)` is
what the `while (length > maxHistorySize) shift()` loop leaves behind for a
non-negative bound `m` (see `trimLoopFuel_terminates`). -/
def trimHist (m : Int) (l : List α) : List α :=
  l.drop (l.length - m.toNat)

/-- Models `addToHistory` (lines 309-316): push, then trim from the front
while over capacity. -/
def addToHistory (m : Int) (history : List α) (run : α) : List α :=
  trimHist m (history ++ [run])

/-- Fuel-indexed faithful model of the trimming loop
`while (this.history.length > this.options.maxHistorySize) this.history.shift();`
(lines 313-315).  `none` means the loop has not reached its exit condition
within `fuel` iterations; a JS `shift()` on an empty array leaves it empty,
which `List.tail` mirrors. -/
def trimLoopFuel (m : Int) : Nat → List α → Option (List α)
  | 0, l => if (l.length : Int) > m then none else some l
  | fuel + 1, l => if (l.length : Int) > m then trimLoopFuel m fuel l.tail else some l

/-- The synchronous prefix of `processNextTask` (lines 253-270): guard,
claim the processing flag, dequeue the head, mark it running and stamp
`startedAt` and `queueTime`. -/
def startRun (now : Nat) (r : TaskRun P R) : TaskRun P R :=
  { r with
    status := .running
    startedAt := some now
    queueTime := some ((now : Int) - (r.queuedAt : Int)) }

def startNext (p : TaskPool P R) (now : Nat) : TaskPool P R :=
  if p.isProcessing || p.isShuttingDown || p.queue.isEmpty then p
  else
    match p.queue with
    | [] => p
    | r :: rest =>
      { p with
        isProcessing := true
        queue := rest
        currentRun := some (startRun now r) }

/-- The terminal update applied to the current run (lines 272-289): on
success store the result, on failure store the normalized error; either
way stamp `completedAt` and compute `duration`. -/
def finishedRun (r : TaskRun P R) (outcome : TaskOutcome R) (now : Nat) : TaskRun P R :=
  match outcome with
  | .success v =>
    { r with
      status := .completed
      result := some v
      completedAt := some now
      duration := some ((now : Int) - ((r.startedAt.getD 0 : Nat) : Int)) }
  | .failure t =>
    { r with
      status := .failed
      error := some (normalizeError t)
      completedAt := some now
      duration := some ((now : Int) - ((r.startedAt.getD 0 : Nat) : Int)) }

/-- The continuation of `processNextTask` after the awaited task settles
(lines 272-297): record the outcome, append to history, clear the current
slot and release the processing flag. -/
def finishCurrent (p : TaskPool P R) (outcome : TaskOutcome R) (now : Nat) : TaskPool P R :=
  match p.currentRun with
  | none => p
  | some r =>
    { p with
      history := addToHistory p.maxHistorySize p.history (finishedRun r outcome now)
      currentRun := none
      isProcessing := false }

/-- Models `enqueue` (lines 147-166): reject when shutting down; otherwise
increment the counter, create a PENDING run stamped `queuedAt`, push it,
and run the synchronous prefix of `processNextTask`.  Returns the new
pool state together with the run id. -/
def TaskPool.enqueue (p : TaskPool P R) (params : P) (now : Nat) :
    Except String (TaskPool P R × String) :=
  if p.isShuttingDown then
    .error "Task pool is shutting down, cannot enqueue new tasks"
  else
    let counter := p.runCounter + 1
    let runId := generateRunId now counter
    let run : TaskRun P R :=
      { id := runId, params := params, status := .pending, queuedAt := now }
    let p1 : TaskPool P R := { p with runCounter := counter, queue := p.queue ++ [run] }
    .ok (startNext p1 now, runId)

/-- Models `getQueueSize` (lines 168-170). -/
def TaskPool.getQueueSize (p : TaskPool P R) : Nat :=
  p.queue.length

/-- Models `history.slice(0, limit)`: a JS `slice` whose end bound may be
negative (counted from the end) or past the length. -/
def jsSliceTo (l : List α) (e : Int) : List α :=
  if e < 0 then l.take (l.length - (-e).toNat) else l.take e.toNat

/-- Models `getHistory` (lines 172-175): reverse a copy of the buffer,
then `limit ? history.slice(0, limit) : history` — note that a limit of
`0` is falsy in JS and therefore returns the full history. -/
def TaskPool.getHistory (p : TaskPool P R) (limit : Option Int) : List (TaskRun P R) :=
  let history := p.history.reverse
  match limit with
  | none => history
  | some n => if n = 0 then history else jsSliceTo history n

/-- Models `getCurrentRun` (lines 194-196); the spread copy is the
identity at the value level. -/
def TaskPool.getCurrentRun (p : TaskPool P R) : Option (TaskRun P R) :=
  p.currentRun

/-- Models `isRunning` (lines 198-200). -/
def TaskPool.isRunning (p : TaskPool P R) : Bool :=
  p.isProcessing

/-- Rounding used by `Math.round` on the average: round half toward
positive infinity. -/
def jsRound (x : Rat) : Int :=
  Int.floor (x + 1 / 2)

/-- Models `getStats` (lines 202-228), with the JS float division of two
integers modelled as exact rational division. -/
def TaskPool.getStats (p : TaskPool P R) : PoolStats :=
  let completedRuns :=
    (p.history.filter (fun r => r.status = TaskRunStatus.completed)).length
  let failedRuns :=
    (p.history.filter (fun r => r.status = TaskRunStatus.failed)).length
  let durations :=
    (p.history.filter (fun r => r.duration.isSome)).map (fun r => r.duration.getD 0)
  let averageDurationMs : Rat :=
    if durations.length > 0 then
      ((durations.foldl (fun sum duration => sum + duration) 0 : Int) : Rat) /
        (durations.length : Rat)
    else 0
  { totalRuns := p.history.length
    completedRuns := completedRuns
    failedRuns := failedRuns
    currentQueueSize := p.queue.length
    isRunning := p.isProcessing
    averageDurationMs := jsRound averageDurationMs }

/-- Models `clearHistory` (lines 230-232). -/
def TaskPool.clearHistory (p : TaskPool P R) : TaskPool P R :=
  { p with history := [] }

/-- Models the resolution of `cleanup` (lines 234-244): the shutdown flag
is set immediately; the queue is emptied only once no run is processing
(the polling loop has finished waiting). -/
def TaskPool.cleanupResolved (p : TaskPool P R) : TaskPool P R :=
  let p1 : TaskPool P R := { p with isShuttingDown := true }
  if p1.isProcessing then p1 else { p1 with queue := [] }

/-- One externally observable event on the pool.  `enq` is an `enqueue`
call, `finish` is the settling of the awaited work-function promise,
`start` is a scheduler-triggered `processNextTask` (the `setImmediate`
at line 302), `cleanupBegin`/`cleanupEnd` delimit a `cleanup` call, and
`clearHist` is `clearHistory`. -/
inductive PoolOp (P R : Type) where
  | enq (params : P) (now : Nat)
  | finish (outcome : TaskOutcome R) (now : Nat)
  | start (now : Nat)
  | cleanupBegin
  | cleanupEnd
  | clearHist

/-- Apply one event to the pool state. -/
def applyOp (p : TaskPool P R) : PoolOp P R → TaskPool P R
  | .enq params now =>
    match p.enqueue params now with
    | .ok pr => pr.1
    | .error _ => p
  | .finish outcome now => finishCurrent p outcome now
  | .start now => startNext p now
  | .cleanupBegin => { p with isShuttingDown := true }
  | .cleanupEnd => if p.isProcessing then p else { p with queue := [] }
  | .clearHist => p.clearHistory

/-- Run a list of events from a given state. -/
def execOps (p : TaskPool P R) (ops : List (PoolOp P R)) : TaskPool P R :=
  ops.foldl applyOp p

/-- Enqueue a list of (params, timestamp) pairs in order. -/
def enqueueList (p : TaskPool P R) (ps : List (P × Nat)) : TaskPool P R :=
  ps.foldl (fun q pr => applyOp q (.enq pr.1 pr.2)) p

/-- Drain the pool: repeatedly settle the current run with the outcome the
work function gives for its parameters, then let the scheduler start the
next queued run (the `setImmediate` chain at lines 300-303). -/
def drainAll (task : P → TaskOutcome R) (now : Nat) : Nat → TaskPool P R → TaskPool P R
  | 0, p => p
  | fuel + 1, p =>
    match p.currentRun with
    | none => p
    | some r => drainAll task now fuel (startNext (finishCurrent p (task r.params) now) now)

/-- A queued run is PENDING and carries neither result nor error. -/
def pendingOK (r : TaskRun P R) : Prop :=
  r.status = .pending ∧ r.result = none ∧ r.error = none

/-- The current run is RUNNING and carries neither result nor error. -/
def runningOK (r : TaskRun P R) : Prop :=
  r.status = .running ∧ r.result = none ∧ r.error = none

/-- A history entry is terminal with exactly one of result/error set, and
its completion data stamped. -/
def terminalOK (r : TaskRun P R) : Prop :=
  (r.status = .completed ∧ r.result.isSome ∧ r.error = none ∧ r.duration.isSome) ∨
  (r.status = .failed ∧ r.error.isSome ∧ r.result = none ∧ r.duration.isSome)

/-- The structural invariant of the pool state. -/
def poolWF (p : TaskPool P R) : Prop :=
  (∀ r ∈ p.queue, pendingOK r) ∧
  (∀ r ∈ p.currentRun.toList, runningOK r) ∧
  (∀ r ∈ p.history, terminalOK r) ∧
  (p.isProcessing = false → p.currentRun = none)

/-- The run ids handed back by the successful `enqueue` calls of a trace. -/
def traceIds : TaskPool P R → List (PoolOp P R) → List String
  | _, [] => []
  | p, op :: rest =>
    match op with
    | .enq params now =>
      match p.enqueue params now with
      | .ok pr => pr.2 :: traceIds pr.1 rest
      | .error _ => traceIds p rest
    | _ => traceIds (applyOp p op) rest

/-- Spec-side definition, for comparison with `getStats`: the arithmetic
mean of the recorded durations among history entries, rounded to the
nearest integer, `0` when there are none. -/
def roundedMeanSpec (l : List Int) : Int :=
  if l.isEmpty then 0 else jsRound ((l.sum : Rat) / (l.length : Rat))

/-- Numeric value of a decimal digit character. -/
def charVal (c : Char) : Nat := c.toNat - 48

/-- Value of a most-significant-first decimal digit string. -/
def valDigits (l : List Char) : Nat := l.foldl (fun a c => 10 * a + charVal c) 0

/-- The character list of `Nat.repr`. -/
def reprDigits (n : Nat) : List Char := Nat.toDigits 10 n

/-- The characters after the last dash of a run id. -/
def idCounterPart (s : String) : List Char :=
  (s.data.reverse.takeWhile (fun c => c != '-')).reverse

/-- The run counter encoded in a run id. -/
def extractCounter (s : String) : Nat := valDigits (idCounterPart s)

/-! ### Reference-level model for aliasing claims

JS objects are references into a heap.  A heap cell holds one `TaskRun`
record; an address is an index.  `RefPool` is the pool's private state at
this level: the queue, history buffer and current-run slot hold
addresses.  `[...this.history]` (line 173) copies the array of references
but not the records; `{ ...run }` (lines 180, 186, 191, 195) allocates a
fresh cell holding a copy of the record. -/

/-- Pool-private state at the reference level. -/
structure RefPool where
  maxHistorySize : Int := 100
  queue : List Nat := []
  history : List Nat := []
  currentRun : Option Nat := none
deriving DecidableEq, Repr

/-- Dereference an address. -/
def readRun (heap : List (TaskRun P R)) (a : Nat) : Option (TaskRun P R) :=
  heap[a]?

/-- External code mutating the `status` field of the record it received. -/
def setRunStatus (heap : List (TaskRun P R)) (a : Nat) (s : TaskRunStatus) :
    List (TaskRun P R) :=
  match heap[a]? with
  | some r => heap.set a { r with status := s }
  | none => heap

/-- Models `{ ...run }`: allocate a fresh cell with a copy of the record
at `a` and return its address. -/
def allocCopy (heap : List (TaskRun P R)) (a : Nat) :
    List (TaskRun P R) × Option Nat :=
  match heap[a]? with
  | some r => (heap ++ [r], some heap.length)
  | none => (heap, none)

/-- The id of the record at an address. -/
def idAt (heap : List (TaskRun P R)) (a : Nat) : Option String :=
  (heap[a]?).map (fun r => r.id)

/-- Models `getHistory` (lines 172-175) at the reference level:
`[...this.history].reverse()` is a fresh array whose elements are the
same references, then the same slice logic as the value model. -/
def getHistoryRefs (rp : RefPool) (limit : Option Int) : List Nat :=
  let history := rp.history.reverse
  match limit with
  | none => history
  | some n => if n = 0 then history else jsSliceTo history n

/-- The queue/history part of `getRunById` (lines 183-191). -/
def getRunByIdRest (heap : List (TaskRun P R)) (rp : RefPool) (runId : String) :
    List (TaskRun P R) × Option Nat :=
  match rp.queue.find? (fun b => idAt heap b == some runId) with
  | some b => allocCopy heap b
  | none =>
    match rp.history.find? (fun b => idAt heap b == some runId) with
    | some b => allocCopy heap b
    | none => (heap, none)

/-- Models `getRunById` (lines 177-192): check the current run, then the
queue, then the history; every hit is returned as `{ ...run }`. -/
def getRunByIdRef (heap : List (TaskRun P R)) (rp : RefPool) (runId : String) :
    List (TaskRun P R) × Option Nat :=
  match rp.currentRun with
  | some a =>
    if idAt heap a = some runId then allocCopy heap a
    else getRunByIdRest heap rp runId
  | none => getRunByIdRest heap rp runId

/-- Models `getCurrentRun` (lines 194-196): `{ ...this.currentRun }`. -/
def getCurrentRunRef (heap : List (TaskRun P R)) (rp : RefPool) :
    List (TaskRun P R) × Option Nat :=
  match rp.currentRun with
  | some a => allocCopy heap a
  | none => (heap, none)

/-- Models lines 291-297 at the reference level: the finished run is
updated in place, its address is appended to the history, and the very
same address is what `onProcessed` receives (line 297 passes `taskRun`,
not a copy).  Returns (heap, pool, callback argument). -/
def finishAtRef (heap : List (TaskRun P R)) (rp : RefPool)
    (outcome : TaskOutcome R) (now : Nat) :
    List (TaskRun P R) × RefPool × Option Nat :=
  match rp.currentRun with
  | none => (heap, rp, none)
  | some a =>
    match heap[a]? with
    | none => (heap, rp, none)
    | some r =>
      (heap.set a (finishedRun r outcome now),
       { rp with
         history := addToHistory rp.maxHistorySize rp.history a
         currentRun := none },
       some a)

/-- The pending run created by the i-th of a burst of `enqueue` calls,
starting from run counter `c`. -/
def pendingRuns (c : Nat) : List (P × Nat) → List (TaskRun P R)
  | [] => []
  | pr :: rest =>
    { id := generateRunId pr.2 (c + 1), params := pr.1, status := .pending,
      queuedAt := pr.2 } :: pendingRuns (c + 1) rest

theorem length_addToHistory_le (m : Int) (h : List α) (r : α) :
    (addToHistory m h r).length ≤ m.toNat := by
  simp only [addToHistory, trimHist, List.length_drop, List.length_append,
    List.length_singleton]
  omega

theorem addToHistory_suffix (m : Int) (h : List α) (r : α) :
    addToHistory m h r <:+ h ++ [r] :=
  List.drop_suffix _ _

theorem trimHist_eq_self (m : Int) (l : List α) (h : l.length ≤ m.toNat) :
    trimHist m l = l := by
  unfold trimHist
  have h0 : l.length - m.toNat = 0 := by omega
  simp [h0]

theorem trimHist_idem_append (m : Int) (l1 l2 : List α) :
    trimHist m (trimHist m l1 ++ l2) = trimHist m (l1 ++ l2) := by
  unfold trimHist
  rcases le_or_lt l1.length m.toNat with hle | hlt
  · have h0 : l1.length - m.toNat = 0 := by omega
    simp [h0]
  · have hj : l1.length - m.toNat ≤ l1.length := by omega
    rw [← List.drop_append_of_le_length hj, List.drop_drop]
    congr 1
    simp only [List.length_drop, List.length_append]
    omega

theorem trimHist_map (m : Int) (l : List α) (f : α → β) :
    (trimHist m l).map f = trimHist m (l.map f) := by
  simp [trimHist, List.map_drop]

theorem drainAll_of_none (task : P → TaskOutcome R) (now fuel : Nat)
    (p : TaskPool P R) (h : p.currentRun = none) :
    drainAll task now fuel p = p := by
  cases fuel <;> simp [drainAll, h]

theorem drainAll_run (task : P → TaskOutcome R) (now : Nat) :
    ∀ (qs : List (TaskRun P R)) (fuel : Nat) (p : TaskPool P R) (r : TaskRun P R),
      p.queue = qs → p.currentRun = some r → p.isProcessing = true →
      p.isShuttingDown = false → qs.length < fuel →
      drainAll task now fuel p =
        { p with
          queue := []
          currentRun := none
          isProcessing := false
          history := trimHist p.maxHistorySize
            (p.history ++ (r :: qs.map (startRun now)).map
              (fun x => finishedRun x (task x.params) now)) } := by
  intro qs
  induction qs with
  | nil =>
    intro fuel p r hq hcur hproc hshut hfuel
    obtain ⟨f, rfl⟩ : ∃ f, fuel = f + 1 := ⟨fuel - 1, by omega⟩
    have h1 : finishCurrent p (task r.params) now =
        { p with
          history := addToHistory p.maxHistorySize p.history
            (finishedRun r (task r.params) now)
          currentRun := none
          isProcessing := false } := by
      simp [finishCurrent, hcur]
    have h2 : startNext (finishCurrent p (task r.params) now) now =
        finishCurrent p (task r.params) now := by
      rw [h1]
      simp [startNext, hq, hshut]
    simp only [drainAll, hcur]
    rw [h2, h1, drainAll_of_none _ _ _ _ rfl]
    simp [addToHistory, hq]
  | cons q qs ih =>
    intro fuel p r hq hcur hproc hshut hfuel
    obtain ⟨f, rfl⟩ : ∃ f, fuel = f + 1 := ⟨fuel - 1, by omega⟩
    have h1 : finishCurrent p (task r.params) now =
        { p with
          history := addToHistory p.maxHistorySize p.history
            (finishedRun r (task r.params) now)
          currentRun := none
          isProcessing := false } := by
      simp [finishCurrent, hcur]
    have h2 : startNext (finishCurrent p (task r.params) now) now =
        { p with
          history := addToHistory p.maxHistorySize p.history
            (finishedRun r (task r.params) now)
          currentRun := some (startRun now q)
          isProcessing := true
          queue := qs } := by
      rw [h1]
      simp [startNext, hq, hshut]
    simp only [drainAll, hcur, h2]
    rw [ih f _ (startRun now q) rfl rfl rfl (by simp [hshut]) (by simp at hfuel ⊢; omega)]
    simp only [addToHistory, trimHist_idem_append, List.map_cons, List.append_assoc,
      List.cons_append, List.singleton_append, List.nil_append]

theorem enqueueList_busy :
    ∀ (ps : List (P × Nat)) (p : TaskPool P R),
      p.isProcessing = true → p.isShuttingDown = false →
      enqueueList p ps =
        { p with
          queue := p.queue ++ pendingRuns p.runCounter ps
          runCounter := p.runCounter + ps.length } := by
  intro ps
  induction ps with
  | nil => intro p _ _; simp [enqueueList, pendingRuns]
  | cons pr rest ih =>
    intro p hproc hshut
    have h1 : applyOp p (.enq pr.1 pr.2) =
        { p with
          runCounter := p.runCounter + 1
          queue := p.queue ++
            [{ id := generateRunId pr.2 (p.runCounter + 1), params := pr.1,
               status := .pending, queuedAt := pr.2 }] } := by
      simp [applyOp, TaskPool.enqueue, hshut, startNext, hproc]
    show enqueueList (applyOp p (.enq pr.1 pr.2)) rest = _
    rw [h1, ih _ (by simp [hproc]) (by simp [hshut])]
    simp [pendingRuns, List.append_assoc]
    omega

theorem startRun_params (now : Nat) (r : TaskRun P R) :
    (startRun now r).params = r.params := rfl

theorem finishedRun_params (r : TaskRun P R) (o : TaskOutcome R) (now : Nat) :
    (finishedRun r o now).params = r.params := by
  cases o <;> rfl

theorem pendingRuns_map_params (ps : List (P × Nat)) :
    ∀ c, (pendingRuns (P := P) (R := R) c ps).map TaskRun.params = ps.map Prod.fst := by
  induction ps with
  | nil => intro c; rfl
  | cons pr rest ih => intro c; simp [pendingRuns, ih]

theorem pendingRuns_length (ps : List (P × Nat)) :
    ∀ c, (pendingRuns (P := P) (R := R) c ps).length = ps.length := by
  induction ps with
  | nil => intro c; rfl
  | cons pr rest ih => intro c; simp [pendingRuns, ih]

/-- C1: enqueued tasks execute one at a time in FIFO submission order; once
every enqueued run is terminal, `getHistory()` reversed to chronological
order lists the runs in the order of the `enqueue` calls — exactly the
enqueued parameter sequence whenever it fits in the history capacity, and
in general its order-preserving suffix (older entries having been
evicted). -/
theorem fifo_history_order (P R : Type) (o : Option Int) (ps : List (P × Nat))
    (task : P → TaskOutcome R) (now : Nat) :
    ((drainAll task now (ps.length + 1) (enqueueList (mkTaskPool P R o) ps)).getHistory
        none).reverse.map TaskRun.params <:+ ps.map Prod.fst ∧
    ((ps.length : Int) ≤ o.getD 100 →
      ((drainAll task now (ps.length + 1) (enqueueList (mkTaskPool P R o) ps)).getHistory
        none).reverse.map TaskRun.params = ps.map Prod.fst) := by
  cases ps with
  | nil =>
    constructor
    · simp [enqueueList, drainAll, mkTaskPool, TaskPool.getHistory]
    · intro _; simp [enqueueList, drainAll, mkTaskPool, TaskPool.getHistory]
  | cons pr rest =>
    have h1 : applyOp (mkTaskPool P R o) (.enq pr.1 pr.2) =
        { maxHistorySize := o.getD 100, queue := [], history := [],
          currentRun := some (startRun pr.2
            { id := generateRunId pr.2 1, params := pr.1, status := .pending,
              queuedAt := pr.2 }),
          isProcessing := true, isShuttingDown := false, runCounter := 1 } := rfl
    have h2 : enqueueList (mkTaskPool P R o) (pr :: rest) =
        { maxHistorySize := o.getD 100, queue := pendingRuns 1 rest, history := [],
          currentRun := some (startRun pr.2
            { id := generateRunId pr.2 1, params := pr.1, status := .pending,
              queuedAt := pr.2 }),
          isProcessing := true, isShuttingDown := false,
          runCounter := 1 + rest.length } := by
      show enqueueList (applyOp (mkTaskPool P R o) (.enq pr.1 pr.2)) rest = _
      rw [h1, enqueueList_busy rest _ rfl rfl]
      simp
    have h3 := drainAll_run task now (pendingRuns 1 rest) ((pr :: rest).length + 1)
      (enqueueList (mkTaskPool P R o) (pr :: rest))
      (startRun pr.2
        { id := generateRunId pr.2 1, params := pr.1, status := .pending,
          queuedAt := pr.2 })
      (by rw [h2]) (by rw [h2]) (by rw [h2]) (by rw [h2])
      (by rw [pendingRuns_length]; simp only [List.length_cons]; omega)
    rw [h3, h2]
    simp only [TaskPool.getHistory, List.reverse_reverse, List.nil_append, trimHist_map,
      List.map_cons, List.map_map, Function.comp_def, finishedRun_params, startRun_params,
      pendingRuns_map_params]
    constructor
    · exact List.drop_suffix _ _
    · intro hle
      apply trimHist_eq_self
      simp only [List.length_cons, List.length_map]
      simp only [List.length_cons] at hle
      omega

/-- Witness for C1 at a concrete instance. -/
theorem fifo_history_order_witness :
    ((drainAll (fun n => TaskOutcome.success (n + 1)) 0
        ([((1 : Nat), (0 : Nat)), (2, 0)].length + 1)
        (enqueueList (mkTaskPool Nat Nat none) [(1, 0), (2, 0)])).getHistory
      none).reverse.map TaskRun.params = [1, 2] :=
  (fifo_history_order Nat Nat none [(1, 0), (2, 0)]
    (fun n => .success (n + 1)) 0).2 (by decide)

theorem pendingOK_newRun (params : P) (runId : String) (now : Nat) :
    pendingOK (P := P) (R := R)
      { id := runId, params := params, status := .pending, queuedAt := now } :=
  ⟨rfl, rfl, rfl⟩

theorem runningOK_startRun (now : Nat) (r : TaskRun P R) (h : pendingOK r) :
    runningOK (startRun now r) :=
  ⟨rfl, h.2.1, h.2.2⟩

theorem terminalOK_finishedRun (r : TaskRun P R) (outcome : TaskOutcome R) (now : Nat)
    (h : runningOK r) : terminalOK (finishedRun r outcome now) := by
  cases outcome with
  | success v => exact Or.inl ⟨rfl, rfl, h.2.2, rfl⟩
  | failure t => exact Or.inr ⟨rfl, rfl, h.2.1, rfl⟩

theorem poolWF_startNext (p : TaskPool P R) (now : Nat) (h : poolWF p) :
    poolWF (startNext p now) := by
  unfold startNext
  split
  · exact h
  · split
    · exact h
    · next r rest hq =>
      obtain ⟨h1, h2, h3, h4⟩ := h
      refine ⟨?_, ?_, ?_, ?_⟩
      · intro x hx
        exact h1 x (by rw [hq]; exact List.mem_cons_of_mem _ hx)
      · intro x hx
        simp only [Option.toList_some, List.mem_singleton] at hx
        subst hx
        exact runningOK_startRun now r (h1 r (by rw [hq]; exact List.mem_cons_self r rest))
      · exact h3
      · intro hfalse
        simp at hfalse

theorem poolWF_finishCurrent (p : TaskPool P R) (outcome : TaskOutcome R) (now : Nat)
    (h : poolWF p) : poolWF (finishCurrent p outcome now) := by
  unfold finishCurrent
  cases hc : p.currentRun with
  | none => exact h
  | some r =>
    obtain ⟨h1, h2, h3, h4⟩ := h
    refine ⟨h1, ?_, ?_, ?_⟩
    · intro x hx
      simp [Option.toList] at hx
    · intro x hx
      have hx2 := (addToHistory_suffix p.maxHistorySize p.history
        (finishedRun r outcome now)).subset hx
      rcases List.mem_append.mp hx2 with hmem | hmem
      · exact h3 x hmem
      · rw [List.mem_singleton.mp hmem]
        exact terminalOK_finishedRun r outcome now
          (h2 r (by rw [hc]; simp [Option.toList]))
    · intro _; rfl

theorem poolWF_applyOp (p : TaskPool P R) (op : PoolOp P R) (h : poolWF p) :
    poolWF (applyOp p op) := by
  obtain ⟨h1, h2, h3, h4⟩ := h
  cases op with
  | enq params now =>
    by_cases hshut : p.isShuttingDown = true
    · have happ : applyOp p (.enq params now) = p := by
        simp [applyOp, TaskPool.enqueue, hshut]
      rw [happ]
      exact ⟨h1, h2, h3, h4⟩
    · simp only [Bool.not_eq_true] at hshut
      have happ : applyOp p (.enq params now) = startNext
          { p with
            runCounter := p.runCounter + 1
            queue := p.queue ++
              [{ id := generateRunId now (p.runCounter + 1), params := params,
                 status := .pending, queuedAt := now }] } now := by
        simp [applyOp, TaskPool.enqueue, hshut]
      rw [happ]
      apply poolWF_startNext
      refine ⟨?_, h2, h3, h4⟩
      intro x hx
      rcases List.mem_append.mp hx with hmem | hmem
      · exact h1 x hmem
      · rw [List.mem_singleton.mp hmem]
        exact pendingOK_newRun params _ now
  | finish outcome now => exact poolWF_finishCurrent p outcome now ⟨h1, h2, h3, h4⟩
  | start now => exact poolWF_startNext p now ⟨h1, h2, h3, h4⟩
  | cleanupBegin => exact ⟨h1, h2, h3, h4⟩
  | cleanupEnd =>
    simp only [applyOp]
    split
    · exact ⟨h1, h2, h3, h4⟩
    · refine ⟨?_, h2, h3, h4⟩
      intro x hx
      simp at hx
  | clearHist =>
    refine ⟨h1, h2, ?_, h4⟩
    intro x hx
    simp [applyOp, TaskPool.clearHistory] at hx

theorem poolWF_exec (P R : Type) (o : Option Int) (ops : List (PoolOp P R)) :
    poolWF (execOps (mkTaskPool P R o) ops) := by
  have init : poolWF (mkTaskPool P R o) := by
    refine ⟨?_, ?_, ?_, ?_⟩ <;> simp [mkTaskPool]
  have step : ∀ (ops1 : List (PoolOp P R)) (q : TaskPool P R), poolWF q →
      poolWF (execOps q ops1) := by
    intro ops1
    induction ops1 with
    | nil => intro q hq; exact hq
    | cons op rest ih =>
      intro q hq
      exact ih (applyOp q op) (poolWF_applyOp q op hq)
  exact step ops _ init

/-- C2: for every TaskRun the pool holds in a reachable state, the result
field is populated exactly when the status is COMPLETED and the error
field exactly when the status is FAILED; in particular a terminal run has
exactly one of the two populated, never both, never neither. -/
theorem terminal_run_exactly_one (P R : Type) (o : Option Int) (ops : List (PoolOp P R))
    (r : TaskRun P R)
    (hr : r ∈ (execOps (mkTaskPool P R o) ops).history ∨
          r ∈ (execOps (mkTaskPool P R o) ops).queue ∨
          r ∈ (execOps (mkTaskPool P R o) ops).currentRun.toList) :
    (r.result.isSome ↔ r.status = .completed) ∧
    (r.error.isSome ↔ r.status = .failed) ∧
    ((r.status = .completed ∨ r.status = .failed) →
      (r.result.isSome ↔ ¬ r.error.isSome)) := by
  obtain ⟨h1, h2, h3, _⟩ := poolWF_exec P R o ops
  rcases hr with hmem | hmem | hmem
  · rcases h3 r hmem with ⟨hs, hres, herr, _⟩ | ⟨hs, herr, hres, _⟩
    · rw [hs, hres, herr]
      refine ⟨by simp, by simp, ?_⟩
      intro _
      simp
    · rw [hs, hres, herr]
      refine ⟨by simp, by simp [herr], ?_⟩
      intro _
      simp [herr]
  · rcases h1 r hmem with ⟨hs, hres, herr⟩
    rw [hs, hres, herr]
    refine ⟨by simp, by simp, by simp⟩
  · rcases h2 r hmem with ⟨hs, hres, herr⟩
    rw [hs, hres, herr]
    refine ⟨by simp, by simp, by simp⟩

/-- Witness for C2: the completed run of a concrete trace. -/
theorem terminal_run_exactly_one_witness :
    (((some 5 : Option Nat).isSome ↔ TaskRunStatus.completed = TaskRunStatus.completed) ∧
     ((none : Option JsError).isSome ↔ TaskRunStatus.completed = TaskRunStatus.failed) ∧
     ((TaskRunStatus.completed = TaskRunStatus.completed ∨
       TaskRunStatus.completed = TaskRunStatus.failed) →
      ((some 5 : Option Nat).isSome ↔ ¬ (none : Option JsError).isSome))) := by
  have h := terminal_run_exactly_one Nat Nat none
    [.enq 1 0, .finish (.success 5) 1]
    { id := "run-0-1", params := 1, status := .completed, result := some 5,
      error := none, startedAt := some 0, completedAt := some 1,
      duration := some 1, queueTime := some 0, queuedAt := 0 }
    (Or.inl (by decide))
  exact h

theorem startNext_history (p : TaskPool P R) (now : Nat) :
    (startNext p now).history = p.history := by
  unfold startNext
  split
  · rfl
  · split <;> rfl

theorem startNext_maxHistorySize (p : TaskPool P R) (now : Nat) :
    (startNext p now).maxHistorySize = p.maxHistorySize := by
  unfold startNext
  split
  · rfl
  · split <;> rfl

theorem applyOp_history_bound (p : TaskPool P R) (op : PoolOp P R)
    (h : p.history.length ≤ p.maxHistorySize.toNat) :
    (applyOp p op).history.length ≤ (applyOp p op).maxHistorySize.toNat := by
  cases op with
  | enq params now =>
    by_cases hshut : p.isShuttingDown = true
    · simpa [applyOp, TaskPool.enqueue, hshut] using h
    · simp only [Bool.not_eq_true] at hshut
      have happ : applyOp p (.enq params now) = startNext
          { p with
            runCounter := p.runCounter + 1
            queue := p.queue ++
              [{ id := generateRunId now (p.runCounter + 1), params := params,
                 status := .pending, queuedAt := now }] } now := by
        simp [applyOp, TaskPool.enqueue, hshut]
      rw [happ, startNext_history, startNext_maxHistorySize]
      simpa using h
  | finish outcome now =>
    show (finishCurrent p outcome now).history.length ≤
      (finishCurrent p outcome now).maxHistorySize.toNat
    unfold finishCurrent
    cases hc : p.currentRun with
    | none => exact h
    | some r => exact length_addToHistory_le p.maxHistorySize p.history _
  | start now =>
    show (startNext p now).history.length ≤ (startNext p now).maxHistorySize.toNat
    rw [startNext_history, startNext_maxHistorySize]
    exact h
  | cleanupBegin => exact h
  | cleanupEnd =>
    simp only [applyOp]
    split
    · exact h
    · exact h
  | clearHist => simp [applyOp, TaskPool.clearHistory]

theorem execOps_history_bound (ops : List (PoolOp P R)) :
    ∀ p : TaskPool P R, p.history.length ≤ p.maxHistorySize.toNat →
      (execOps p ops).history.length ≤ (execOps p ops).maxHistorySize.toNat := by
  induction ops with
  | nil => intro p h; exact h
  | cons op rest ih =>
    intro p h
    exact ih (applyOp p op) (applyOp_history_bound p op h)

theorem execOps_maxHistorySize (ops : List (PoolOp P R)) :
    ∀ p : TaskPool P R, (execOps p ops).maxHistorySize = p.maxHistorySize := by
  induction ops with
  | nil => intro p; rfl
  | cons op rest ih =>
    intro p
    rw [show execOps p (op :: rest) = execOps (applyOp p op) rest from rfl, ih]
    cases op with
    | enq params now =>
      by_cases hshut : p.isShuttingDown = true
      · simp [applyOp, TaskPool.enqueue, hshut]
      · simp only [Bool.not_eq_true] at hshut
        have happ : applyOp p (.enq params now) = startNext
            { p with
              runCounter := p.runCounter + 1
              queue := p.queue ++
                [{ id := generateRunId now (p.runCounter + 1), params := params,
                   status := .pending, queuedAt := now }] } now := by
          simp [applyOp, TaskPool.enqueue, hshut]
        rw [happ, startNext_maxHistorySize]
    | finish outcome now =>
      show (finishCurrent p outcome now).maxHistorySize = _
      unfold finishCurrent
      cases hc : p.currentRun <;> rfl
    | start now => exact startNext_maxHistorySize p now
    | cleanupBegin => rfl
    | cleanupEnd =>
      simp only [applyOp]
      split <;> rfl
    | clearHist => rfl

/-- C3: under `maxHistorySize = M` the history buffer never holds more than
M terminal runs in any reachable state; when a new terminal run arrives the
oldest entries are evicted first (the trimmed buffer is a suffix of
push-then-evict order); with M = 3 and five sequentially enqueued tasks the
drained history holds exactly the runs for inputs 3, 4, 5. -/
theorem history_bounded_fifo_eviction (P R : Type) (M : Nat) :
    (∀ ops : List (PoolOp P R),
      (execOps (mkTaskPool P R (some (M : Int))) ops).history.length ≤ M) ∧
    (∀ (h : List (TaskRun P R)) (r : TaskRun P R),
      addToHistory (M : Int) h r <:+ h ++ [r] ∧
      (addToHistory (M : Int) h r).length ≤ M) ∧
    ((drainAll (fun n => TaskOutcome.success (n * 2)) 0 6
        (enqueueList (mkTaskPool Nat Nat (some 3))
          [(1, 0), (2, 0), (3, 0), (4, 0), (5, 0)])).history.map
      (fun r => (r.params, r.result)) =
      [(3, some 6), (4, some 8), (5, some 10)]) := by
  refine ⟨?_, ?_, ?_⟩
  · intro ops
    have h := execOps_history_bound ops (mkTaskPool P R (some (M : Int)))
      (by simp [mkTaskPool])
    rwa [execOps_maxHistorySize, show (mkTaskPool P R (some (M : Int))).maxHistorySize =
      (M : Int) from rfl, Int.toNat_natCast] at h
  · intro h r
    refine ⟨addToHistory_suffix _ h r, ?_⟩
    have := length_addToHistory_le (M : Int) h r
    rwa [Int.toNat_natCast] at this
  · decide

theorem cleanupResolved_eq (p : TaskPool P R) (hproc : p.isProcessing = false) :
    p.cleanupResolved = { p with isShuttingDown := true, queue := [] } := by
  simp [TaskPool.cleanupResolved, hproc]

theorem shutdown_stable (ops : List (PoolOp P R)) :
    ∀ q : TaskPool P R, q.isShuttingDown = true → q.queue = [] →
      q.currentRun = none → q.isProcessing = false →
      (execOps q ops).queue = [] ∧ (execOps q ops).currentRun = none ∧
      (execOps q ops).isShuttingDown = true ∧ (execOps q ops).isProcessing = false ∧
      ∀ r ∈ (execOps q ops).history, r ∈ q.history := by
  induction ops with
  | nil => intro q hs hq hc hp; exact ⟨hq, hc, hs, hp, fun r hr => hr⟩
  | cons op rest ih =>
    intro q hs hq hc hp
    have hstep : (applyOp q op).queue = [] ∧ (applyOp q op).currentRun = none ∧
        (applyOp q op).isShuttingDown = true ∧ (applyOp q op).isProcessing = false ∧
        ∀ r ∈ (applyOp q op).history, r ∈ q.history := by
      cases op with
      | enq params now =>
        have happ : applyOp q (.enq params now) = q := by
          simp [applyOp, TaskPool.enqueue, hs]
        rw [happ]
        exact ⟨hq, hc, hs, hp, fun r hr => hr⟩
      | finish outcome now =>
        have happ : applyOp q (.finish outcome now) = q := by
          show finishCurrent q outcome now = q
          unfold finishCurrent
          rw [hc]
        rw [happ]
        exact ⟨hq, hc, hs, hp, fun r hr => hr⟩
      | start now =>
        have happ : applyOp q (.start now) = q := by
          show startNext q now = q
          unfold startNext
          simp [hs]
        rw [happ]
        exact ⟨hq, hc, hs, hp, fun r hr => hr⟩
      | cleanupBegin => exact ⟨hq, hc, rfl, hp, fun r hr => hr⟩
      | cleanupEnd =>
        have happ : applyOp q .cleanupEnd = { q with queue := [] } := by
          simp [applyOp, hp]
        rw [happ]
        exact ⟨rfl, hc, hs, hp, fun r hr => hr⟩
      | clearHist =>
        refine ⟨hq, hc, hs, hp, fun r hr => ?_⟩
        simp [applyOp, TaskPool.clearHistory] at hr
    obtain ⟨a1, a2, a3, a4, a5⟩ := hstep
    have hrest := ih (applyOp q op) a3 a1 a2 a4
    exact ⟨hrest.1, hrest.2.1, hrest.2.2.1, hrest.2.2.2.1,
      fun r hr => a5 r (hrest.2.2.2.2 r hr)⟩

/-- C4: once `cleanup()` has resolved on a reachable pool (the in-flight
run, if any, has finished, so `isProcessing` is false), the queue is
empty, the pool is not running, every later `enqueue` fails with the
shutdown error without touching the queue, cleanup is idempotent, and the
pending runs discarded at cleanup are never executed: no later event can
start a run, repopulate the queue, or add anything to the history. -/
theorem cleanup_contract (P R : Type) (o : Option Int) (ops0 : List (PoolOp P R))
    (hproc : (execOps (mkTaskPool P R o) ops0).isProcessing = false) :
    (execOps (mkTaskPool P R o) ops0).cleanupResolved.getQueueSize = 0 ∧
    (execOps (mkTaskPool P R o) ops0).cleanupResolved.isRunning = false ∧
    (∀ (params : P) (now : Nat),
      (execOps (mkTaskPool P R o) ops0).cleanupResolved.enqueue params now =
        .error "Task pool is shutting down, cannot enqueue new tasks") ∧
    (execOps (mkTaskPool P R o) ops0).cleanupResolved.cleanupResolved =
      (execOps (mkTaskPool P R o) ops0).cleanupResolved ∧
    (∀ ops1 : List (PoolOp P R),
      (execOps ((execOps (mkTaskPool P R o) ops0).cleanupResolved) ops1).queue = [] ∧
      (execOps ((execOps (mkTaskPool P R o) ops0).cleanupResolved) ops1).currentRun =
        none ∧
      (execOps ((execOps (mkTaskPool P R o) ops0).cleanupResolved) ops1).isProcessing =
        false ∧
      ∀ r ∈ (execOps ((execOps (mkTaskPool P R o) ops0).cleanupResolved) ops1).history,
        r ∈ (execOps (mkTaskPool P R o) ops0).history) := by
  have hcur : (execOps (mkTaskPool P R o) ops0).currentRun = none :=
    (poolWF_exec P R o ops0).2.2.2 hproc
  have hq := cleanupResolved_eq (execOps (mkTaskPool P R o) ops0) hproc
  refine ⟨?_, ?_, ?_, ?_, ?_⟩
  · rw [hq]; rfl
  · rw [hq]
    exact hproc
  · intro params now
    rw [hq]
    rfl
  · rw [hq]
    simp [TaskPool.cleanupResolved, hproc]
  · intro ops1
    have hstab := shutdown_stable ops1
      ((execOps (mkTaskPool P R o) ops0).cleanupResolved)
      (by rw [hq]) (by rw [hq]) (by rw [hq]; exact hcur) (by rw [hq]; exact hproc)
    refine ⟨hstab.1, hstab.2.1, hstab.2.2.2.1, fun r hr => ?_⟩
    have := hstab.2.2.2.2 r hr
    rw [hq] at this
    exact this

/-- Witness for C4 at a concrete instance. -/
theorem cleanup_contract_witness :
    (mkTaskPool Nat Nat none).cleanupResolved.getQueueSize = 0 ∧
    (mkTaskPool Nat Nat none).cleanupResolved.isRunning = false :=
  ⟨(cleanup_contract Nat Nat none [] rfl).1, (cleanup_contract Nat Nat none [] rfl).2.1⟩

/-- C6: when the work function throws or rejects, the run becomes FAILED
with the thrown value stored as-is when it is an Error and wrapped in an
Error carrying its string representation otherwise; the failure only lands
in that run's record in the history, `enqueue` itself never surfaces a
task failure (it only ever rejects for shutdown), the pool keeps going,
and in the concrete scenario a task throwing `Error("boom")` is followed
by a second task that still executes and completes normally. -/
theorem failure_containment (P R : Type) (p : TaskPool P R) (r : TaskRun P R)
    (thrown : Thrown) (now : Nat) (hc : p.currentRun = some r) :
    (finishCurrent p (.failure thrown) now).history =
      addToHistory p.maxHistorySize p.history (finishedRun r (.failure thrown) now) ∧
    (finishedRun r (.failure thrown) now).status = .failed ∧
    (finishedRun r (.failure thrown) now).error = some (normalizeError thrown) ∧
    (∀ e : JsError, normalizeError (.errObj e) = e) ∧
    (∀ s : String, normalizeError (.nonError s) = { message := s }) ∧
    (∀ (q : TaskPool P R) (params : P) (n : Nat), q.isShuttingDown = false →
      ∃ q2 runId, q.enqueue params n = .ok (q2, runId)) ∧
    ((drainAll
        (fun n => if n = 1 then TaskOutcome.failure (.errObj { message := "boom" })
                  else TaskOutcome.success (n * 2)) 1 3
        (enqueueList (mkTaskPool Nat Nat none) [(1, 0), (2, 0)])).history.map
      (fun x => (x.status, x.error, x.result)) =
      [(.failed, some { message := "boom" }, none), (.completed, none, some 4)]) := by
  refine ⟨?_, rfl, rfl, fun e => rfl, fun s => rfl, ?_, ?_⟩
  · show (finishCurrent p (.failure thrown) now).history =
      addToHistory p.maxHistorySize p.history (finishedRun r (.failure thrown) now)
    unfold finishCurrent
    rw [hc]
  · intro q params n hs
    unfold TaskPool.enqueue
    rw [if_neg (by simp [hs])]
    exact ⟨_, _, rfl⟩
  · decide

/-- Witness for C6 at a concrete instance. -/
theorem failure_containment_witness :
    (finishedRun
        { id := "run-0-1", params := (1 : Nat), status := .running,
          result := (none : Option Nat), startedAt := some 0, queueTime := some 0,
          queuedAt := 0 }
        (.failure (.errObj { message := "boom" })) 2).status = .failed ∧
    (finishedRun
        { id := "run-0-1", params := (1 : Nat), status := .running,
          result := (none : Option Nat), startedAt := some 0, queueTime := some 0,
          queuedAt := 0 }
        (.failure (.errObj { message := "boom" })) 2).error =
      some (normalizeError (.errObj { message := "boom" })) := by
  have h := failure_containment Nat Nat
    { maxHistorySize := 100, currentRun := some
        { id := "run-0-1", params := 1, status := .running, result := none,
          startedAt := some 0, queueTime := some 0, queuedAt := 0 },
      isProcessing := true }
    { id := "run-0-1", params := 1, status := .running, result := none,
      startedAt := some 0, queueTime := some 0, queuedAt := 0 }
    (.errObj { message := "boom" }) 2 rfl
  exact ⟨h.2.1, h.2.2.1⟩

theorem durations_filterMap (l : List (TaskRun P R)) :
    (l.filter (fun r => r.duration.isSome)).map (fun r => r.duration.getD 0) =
      l.filterMap (fun r => r.duration) := by
  induction l with
  | nil => rfl
  | cons r rest ih =>
    cases hd : r.duration with
    | none => simp [List.filter_cons, List.filterMap_cons, hd, ih]
    | some d => simp [List.filter_cons, List.filterMap_cons, hd, ih]

/-- C7: in every pool state, `getStats` reports `totalRuns` equal to the
length of `getHistory()` (terminal runs only; the queue and the current
run are not counted) and `averageDurationMs` equal to the arithmetic mean
of the recorded durations among history entries, rounded like
`Math.round`, with 0 when there are none. -/
theorem stats_from_history (P R : Type) (p : TaskPool P R) :
    p.getStats.totalRuns = (p.getHistory none).length ∧
    p.getStats.averageDurationMs =
      roundedMeanSpec (p.history.filterMap (fun r => r.duration)) := by
  constructor
  · simp [TaskPool.getStats, TaskPool.getHistory]
  · simp only [TaskPool.getStats]
    rw [← durations_filterMap]
    by_cases hD0 : (p.history.filter (fun r => r.duration.isSome)).map
        (fun r => r.duration.getD 0) = []
    · simp only [roundedMeanSpec, hD0, List.isEmpty_nil, if_true, List.length_nil,
        gt_iff_lt, Nat.lt_irrefl, if_false]
      norm_num [jsRound]
    · have hlen : 0 < ((p.history.filter (fun r => r.duration.isSome)).map
          (fun r => r.duration.getD 0)).length := List.length_pos.mpr hD0
      have hlen2 : 0 < (p.history.filter (fun r => r.duration.isSome)).length := by
        simpa using hlen
      simp [roundedMeanSpec, List.isEmpty_iff, hD0, List.sum_eq_foldl, hlen2]

/-- C8 counterexample: with one terminal run in the history, a caller
supplying `limit = 0` receives the full one-element history, not at most 0
entries — `limit ? history.slice(0, limit) : history` treats 0 as falsy. -/
theorem getHistory_zero_limit_counterexample :
    ((drainAll (fun n => TaskOutcome.success n) 1 2
        (enqueueList (mkTaskPool Nat Nat none) [(5, 0)])).getHistory (some 0)).length = 1 ∧
    ¬(((drainAll (fun n => TaskOutcome.success n) 1 2
        (enqueueList (mkTaskPool Nat Nat none) [(5, 0)])).getHistory (some 0)).length ≤ 0) := by
  constructor <;> decide

/-- C8 (amended): for every positive limit, `getHistory(limit)` returns
the history reversed to most-recent-first order truncated to at most
`limit` entries, the most recent ones; a limit of 0, being falsy, is
treated as absent and returns the full reversed history. -/
theorem getHistory_limit_truncates (P R : Type) (p : TaskPool P R) (n : Int) :
    (1 ≤ n → p.getHistory (some n) = p.history.reverse.take n.toNat ∧
      ((p.getHistory (some n)).length : Int) ≤ n) ∧
    p.getHistory (some 0) = p.history.reverse := by
  constructor
  · intro hn
    have hne : ¬ n = 0 := by omega
    have hnneg : ¬ n < 0 := by omega
    constructor
    · simp [TaskPool.getHistory, hne, jsSliceTo, hnneg]
    · simp only [TaskPool.getHistory, hne, if_false, jsSliceTo, hnneg, if_neg,
        List.length_take, List.length_reverse]
      omega
  · simp [TaskPool.getHistory]

/-- Witness for C8's amended theorem at a concrete instance. -/
theorem getHistory_limit_truncates_witness :
    (TaskPool.getHistory
        { maxHistorySize := 100,
          history := [{ id := "a", params := (1 : Nat), status := .completed,
                        result := some (2 : Nat), queuedAt := 0 },
                      { id := "b", params := 3, status := .completed,
                        result := some 4, queuedAt := 0 }] } (some 1) =
      ([{ id := "a", params := (1 : Nat), status := .completed,
          result := some (2 : Nat), queuedAt := 0 },
        { id := "b", params := 3, status := .completed,
          result := some 4, queuedAt := 0 }] :
        List (TaskRun Nat Nat)).reverse.take (1 : Int).toNat) ∧
    ((TaskPool.getHistory
        { maxHistorySize := 100,
          history := [{ id := "a", params := (1 : Nat), status := .completed,
                        result := some (2 : Nat), queuedAt := 0 },
                      { id := "b", params := 3, status := .completed,
                        result := some 4, queuedAt := 0 }] } (some 1)).length : Int) ≤ 1 :=
  (getHistory_limit_truncates Nat Nat
    { maxHistorySize := 100,
      history := [{ id := "a", params := 1, status := .completed,
                    result := some 2, queuedAt := 0 },
                  { id := "b", params := 3, status := .completed,
                    result := some 4, queuedAt := 0 }] } 1).1 (by decide)

/-- C5 counterexample: `[...this.history].reverse()` copies the array but
not its elements.  With one completed run stored at address 0, the element
handed out by `getHistory` is the pool's own reference: mutating the
received record's status flips what the pool's stored history reference
observes from COMPLETED to PENDING. -/
theorem getHistory_alias_counterexample :
    (getHistoryRefs { history := [0] } none = [0]) ∧
    ((getHistoryRefs { history := [0] } none).headD 99 ∈ ([0] : List Nat)) ∧
    readRun
        (setRunStatus
          ([{ id := "run-0-1", params := (1 : Nat), status := .completed,
              result := some (2 : Nat), queuedAt := 0 }] : List (TaskRun Nat Nat))
          ((getHistoryRefs { history := [0] } none).headD 99) .pending)
        0 ≠
      readRun
        ([{ id := "run-0-1", params := (1 : Nat), status := .completed,
            result := some (2 : Nat), queuedAt := 0 }] : List (TaskRun Nat Nat))
        0 := by
  refine ⟨rfl, by decide, by decide⟩

theorem allocCopy_fresh (heap : List (TaskRun P R)) (x : Nat)
    (heap2 : List (TaskRun P R)) (a : Nat) (h : allocCopy heap x = (heap2, some a)) :
    a = heap.length ∧ ∀ b, b < heap.length → heap2[b]? = heap[b]? := by
  unfold allocCopy at h
  cases hx : heap[x]? with
  | none =>
    rw [hx] at h
    simp at h
  | some r =>
    rw [hx] at h
    injection h with h1 h2
    injection h2 with h2
    refine ⟨h2.symm, fun b hb => ?_⟩
    rw [← h1]
    exact List.getElem?_append_left hb

theorem setRunStatus_other (heap : List (TaskRun P R)) (a b : Nat)
    (s : TaskRunStatus) (hne : b ≠ a) :
    readRun (setRunStatus heap a s) b = readRun heap b := by
  unfold setRunStatus readRun
  cases h : heap[a]? with
  | none => rfl
  | some r => exact List.getElem?_set_ne (fun he => hne he.symm)

theorem getRunByIdRest_fresh (heap : List (TaskRun P R)) (rp : RefPool)
    (runId : String) (heap2 : List (TaskRun P R)) (a : Nat)
    (h : getRunByIdRest heap rp runId = (heap2, some a)) :
    a = heap.length ∧ ∀ b, b < heap.length → heap2[b]? = heap[b]? := by
  unfold getRunByIdRest at h
  rcases hq : rp.queue.find? (fun b => idAt heap b == some runId) with _ | b1
  · rw [hq] at h
    rcases hh : rp.history.find? (fun b => idAt heap b == some runId) with _ | b2
    · rw [hh] at h
      simp at h
    · rw [hh] at h
      exact allocCopy_fresh heap b2 heap2 a h
  · rw [hq] at h
    exact allocCopy_fresh heap b1 heap2 a h

theorem getRunByIdRef_fresh (heap : List (TaskRun P R)) (rp : RefPool)
    (runId : String) (heap2 : List (TaskRun P R)) (a : Nat)
    (h : getRunByIdRef heap rp runId = (heap2, some a)) :
    a = heap.length ∧ ∀ b, b < heap.length → heap2[b]? = heap[b]? := by
  unfold getRunByIdRef at h
  rcases hc : rp.currentRun with _ | c
  · rw [hc] at h
    exact getRunByIdRest_fresh heap rp runId heap2 a h
  · rw [hc] at h
    have h2 : (if idAt heap c = some runId then allocCopy heap c
        else getRunByIdRest heap rp runId) = (heap2, some a) := h
    by_cases hid : idAt heap c = some runId
    · rw [if_pos hid] at h2
      exact allocCopy_fresh heap c heap2 a h2
    · rw [if_neg hid] at h2
      exact getRunByIdRest_fresh heap rp runId heap2 a h2

/-- C5 (amended): `getRunById` and `getCurrentRun` hand out independent
copies — the returned reference is freshly allocated, outside every
reference the pool holds, so mutating the received record never changes
what the pool's stored references observe; but the array returned by
`getHistory` holds the pool's own references to the stored runs, and the
processed callback is invoked with the finished run's own reference (the
very address just appended to the history), not a copy. -/
theorem accessor_copy_semantics (P R : Type) (heap : List (TaskRun P R))
    (rp : RefPool) (runId : String)
    (hwf : ∀ a ∈ rp.history ++ rp.queue ++ rp.currentRun.toList, a < heap.length) :
    (getHistoryRefs rp none = rp.history.reverse) ∧
    (∀ (heap2 : List (TaskRun P R)) (a : Nat),
      getRunByIdRef heap rp runId = (heap2, some a) →
      ∀ b ∈ rp.history ++ rp.queue ++ rp.currentRun.toList,
        b ≠ a ∧ ∀ s, readRun (setRunStatus heap2 a s) b = readRun heap b) ∧
    (∀ (heap2 : List (TaskRun P R)) (a : Nat),
      getCurrentRunRef heap rp = (heap2, some a) →
      ∀ b ∈ rp.history ++ rp.queue ++ rp.currentRun.toList,
        b ≠ a ∧ ∀ s, readRun (setRunStatus heap2 a s) b = readRun heap b) ∧
    (∀ (outcome : TaskOutcome R) (now : Nat) (a : Nat), rp.currentRun = some a →
      (finishAtRef heap rp outcome now).2.2 = some a) := by
  refine ⟨rfl, ?_, ?_, ?_⟩
  · intro heap2 a h b hb
    obtain ⟨ha, hpres⟩ := getRunByIdRef_fresh heap rp runId heap2 a h
    have hblt : b < heap.length := hwf b hb
    refine ⟨by omega, fun s => ?_⟩
    rw [setRunStatus_other heap2 a b s (by omega)]
    show heap2[b]? = heap[b]?
    exact hpres b hblt
  · intro heap2 a h b hb
    have halloc : allocCopy heap ((rp.currentRun).getD 0) = (heap2, some a) := by
      unfold getCurrentRunRef at h
      rcases hc : rp.currentRun with _ | c
      · rw [hc] at h
        simp at h
      · rw [hc] at h
        simpa using h
    obtain ⟨ha, hpres⟩ := allocCopy_fresh heap _ heap2 a halloc
    have hblt : b < heap.length := hwf b hb
    refine ⟨by omega, fun s => ?_⟩
    rw [setRunStatus_other heap2 a b s (by omega)]
    show heap2[b]? = heap[b]?
    exact hpres b hblt
  · intro outcome now a hc
    have ha : a < heap.length := hwf a (by simp [hc])
    obtain ⟨r, hr⟩ : ∃ r, heap[a]? = some r :=
      ⟨heap[a], List.getElem?_eq_getElem ha⟩
    simp [finishAtRef, hc, hr]

/-- Witness for C5's amended theorem at a concrete instance. -/
theorem accessor_copy_semantics_witness :
    getHistoryRefs { history := [0] } none = List.reverse [0] :=
  (accessor_copy_semantics Nat Nat
    [{ id := "run-0-1", params := 1, status := .completed, result := some 2,
       queuedAt := 0 }]
    { history := [0] } "run-0-1" (by decide)).1

theorem toDigitsCore_append (f : Nat) : ∀ (n : Nat) (l : List Char),
    Nat.toDigitsCore 10 f n l = Nat.toDigitsCore 10 f n [] ++ l := by
  induction f with
  | zero => intro n l; simp [Nat.toDigitsCore]
  | succ f ih =>
    intro n l
    simp only [Nat.toDigitsCore]
    by_cases h : n / 10 = 0
    · simp [h]
    · simp only [h, if_false]
      rw [ih (n / 10) (Nat.digitChar (n % 10) :: l), ih (n / 10) [Nat.digitChar (n % 10)]]
      simp

theorem toDigitsCore_fuel : ∀ (n f : Nat) (l : List Char), n < f →
    Nat.toDigitsCore 10 f n l = Nat.toDigitsCore 10 (n + 1) n l := by
  intro n
  induction n using Nat.strong_induction_on with
  | _ n ih =>
    intro f l hf
    obtain ⟨f1, rfl⟩ : ∃ f1, f = f1 + 1 := ⟨f - 1, by omega⟩
    simp only [Nat.toDigitsCore]
    by_cases h : n / 10 = 0
    · simp [h]
    · simp only [h, if_false]
      have hne : n ≠ 0 := fun h0 => h (by simp [h0])
      have hn10 : n / 10 < n := Nat.div_lt_self (by omega) (by norm_num)
      rw [ih (n / 10) hn10 f1 _ (by omega), ih (n / 10) hn10 n _ (by omega)]

theorem reprDigits_small (n : Nat) (h : n < 10) : reprDigits n = [Nat.digitChar n] := by
  unfold reprDigits Nat.toDigits
  simp only [Nat.toDigitsCore]
  have h10 : n / 10 = 0 := Nat.div_eq_of_lt h
  simp [h10, Nat.mod_eq_of_lt h]

theorem reprDigits_step (n : Nat) (h : 10 ≤ n) :
    reprDigits n = reprDigits (n / 10) ++ [Nat.digitChar (n % 10)] := by
  have h10 : ¬ n / 10 = 0 := by
    have h1 : 10 / 10 ≤ n / 10 := Nat.div_le_div_right h
    omega
  have hstep : Nat.toDigitsCore 10 (n + 1) n [] =
      Nat.toDigitsCore 10 n (n / 10) [Nat.digitChar (n % 10)] := by
    simp only [Nat.toDigitsCore]
    simp [h10]
  show Nat.toDigitsCore 10 (n + 1) n [] = _
  rw [hstep, toDigitsCore_append, toDigitsCore_fuel (n / 10) n []
    (Nat.div_lt_self (by omega) (by norm_num))]
  rfl

theorem valDigits_append (l : List Char) (c : Char) :
    valDigits (l ++ [c]) = 10 * valDigits l + charVal c := by
  unfold valDigits
  rw [List.foldl_append]
  rfl

theorem charVal_digitChar : ∀ m, m < 10 → charVal (Nat.digitChar m) = m := by decide

theorem digitChar_ne_dash : ∀ m, m < 10 → Nat.digitChar m ≠ '-' := by decide

theorem valDigits_reprDigits : ∀ n, valDigits (reprDigits n) = n := by
  intro n
  induction n using Nat.strong_induction_on with
  | _ n ih =>
    by_cases h : n < 10
    · rw [reprDigits_small n h]
      show List.foldl (fun a c => 10 * a + charVal c) 0 [Nat.digitChar n] = n
      simp [charVal_digitChar n h]
    · push_neg at h
      rw [reprDigits_step n h, valDigits_append,
        ih (n / 10) (Nat.div_lt_self (by omega) (by norm_num)),
        charVal_digitChar (n % 10) (Nat.mod_lt n (by norm_num))]
      omega

theorem reprDigits_ne_dash : ∀ n, ∀ c ∈ reprDigits n, c ≠ '-' := by
  intro n
  induction n using Nat.strong_induction_on with
  | _ n ih =>
    intro c hc
    by_cases h : n < 10
    · rw [reprDigits_small n h] at hc
      rw [List.mem_singleton.mp hc]
      exact digitChar_ne_dash n h
    · push_neg at h
      rw [reprDigits_step n h] at hc
      rcases List.mem_append.mp hc with hm | hm
      · exact ih (n / 10) (Nat.div_lt_self (by omega) (by norm_num)) c hm
      · rw [List.mem_singleton.mp hm]
        exact digitChar_ne_dash (n % 10) (Nat.mod_lt n (by norm_num))

theorem takeWhile_append_all (p : Char → Bool) (D : List Char) (x : Char)
    (A : List Char) (hD : ∀ c ∈ D, p c = true) (hx : p x = false) :
    (D ++ x :: A).takeWhile p = D := by
  induction D with
  | nil => simp [List.takeWhile, hx]
  | cons c rest ih =>
    simp [List.takeWhile, hD c (by simp)]
    exact ih (fun d hd => hD d (by simp [hd]))

theorem idCounterPart_generateRunId (t c : Nat) :
    idCounterPart (generateRunId t c) = reprDigits c := by
  unfold idCounterPart generateRunId
  have hdata : ("run-" ++ Nat.repr t ++ "-" ++ Nat.repr c).data =
      (("run-".data ++ reprDigits t) ++ '-' :: []) ++ reprDigits c := by
    simp [String.data_append, Nat.repr, List.asString, reprDigits, Nat.toDigits]
  rw [hdata, List.reverse_append]
  have hXrev : ((("run-".data ++ reprDigits t) ++ '-' :: [])).reverse =
      '-' :: ("run-".data ++ reprDigits t).reverse := by
    simp
  rw [hXrev, takeWhile_append_all _ _ _ _ ?hD rfl]
  case hD =>
    intro ch hch
    have := reprDigits_ne_dash c ch (List.mem_reverse.mp hch)
    simpa using this
  exact List.reverse_reverse _

theorem extractCounter_generateRunId (t c : Nat) :
    extractCounter (generateRunId t c) = c := by
  unfold extractCounter
  rw [idCounterPart_generateRunId, valDigits_reprDigits]

theorem startNext_runCounter (p : TaskPool P R) (now : Nat) :
    (startNext p now).runCounter = p.runCounter := by
  unfold startNext
  split
  · rfl
  · split <;> rfl

theorem applyOp_enq (p : TaskPool P R) (params : P) (now : Nat)
    (hshut : p.isShuttingDown = false) :
    applyOp p (.enq params now) = startNext
      { p with
        runCounter := p.runCounter + 1
        queue := p.queue ++
          [{ id := generateRunId now (p.runCounter + 1), params := params,
             status := .pending, queuedAt := now }] } now := by
  simp [applyOp, TaskPool.enqueue, hshut]

theorem runCounter_applyOp (p : TaskPool P R) (op : PoolOp P R) :
    p.runCounter ≤ (applyOp p op).runCounter := by
  cases op with
  | enq params now =>
    by_cases hshut : p.isShuttingDown = true
    · simp [applyOp, TaskPool.enqueue, hshut]
    · simp only [Bool.not_eq_true] at hshut
      rw [applyOp_enq p params now hshut, startNext_runCounter]
      simp
  | finish outcome now =>
    show p.runCounter ≤ (finishCurrent p outcome now).runCounter
    unfold finishCurrent
    cases p.currentRun <;> simp
  | start now =>
    show p.runCounter ≤ (startNext p now).runCounter
    rw [startNext_runCounter]
  | cleanupBegin => exact Nat.le_refl _
  | cleanupEnd =>
    simp only [applyOp]
    split <;> exact Nat.le_refl _
  | clearHist => exact Nat.le_refl _

theorem enqueue_ok_counter (p : TaskPool P R) (params : P) (now : Nat)
    (p2 : TaskPool P R) (runId : String)
    (h : p.enqueue params now = .ok (p2, runId)) :
    runId = generateRunId now (p.runCounter + 1) ∧
    p2.runCounter = p.runCounter + 1 := by
  unfold TaskPool.enqueue at h
  by_cases hshut : p.isShuttingDown = true
  · rw [if_pos hshut] at h
    simp at h
  · rw [if_neg hshut] at h
    injection h with h1
    injection h1 with ha hb
    refine ⟨hb.symm, ?_⟩
    rw [← ha, startNext_runCounter]

theorem traceIds_counter_lt (ops : List (PoolOp P R)) :
    ∀ (p : TaskPool P R) (runId : String), runId ∈ traceIds p ops →
      p.runCounter < extractCounter runId := by
  induction ops with
  | nil => intro p runId h; simp [traceIds] at h
  | cons op rest ih =>
    intro p runId h
    cases op with
    | enq params now =>
      rcases he : p.enqueue params now with e | pr
      · have ht : traceIds p (.enq params now :: rest) = traceIds p rest := by
          simp [traceIds, he]
        rw [ht] at h
        exact ih p runId h
      · have ht : traceIds p (.enq params now :: rest) =
            pr.2 :: traceIds pr.1 rest := by
          simp [traceIds, he]
        rw [ht] at h
        obtain ⟨hid, hcnt⟩ := enqueue_ok_counter p params now pr.1 pr.2 (by rw [he])
        rcases List.mem_cons.mp h with h1 | h1
        · rw [h1, hid, extractCounter_generateRunId]
          omega
        · have := ih pr.1 runId h1
          omega
    | finish outcome now =>
      have h2 : runId ∈ traceIds (applyOp p (.finish outcome now)) rest := h
      have := ih _ runId h2
      have hle := runCounter_applyOp p (.finish outcome now)
      omega
    | start now =>
      have h2 : runId ∈ traceIds (applyOp p (.start now)) rest := h
      have := ih _ runId h2
      have hle := runCounter_applyOp p (.start now)
      omega
    | cleanupBegin =>
      have h2 : runId ∈ traceIds (applyOp p .cleanupBegin) rest := h
      have := ih _ runId h2
      have hle := runCounter_applyOp p .cleanupBegin
      omega
    | cleanupEnd =>
      have h2 : runId ∈ traceIds (applyOp p .cleanupEnd) rest := h
      have := ih _ runId h2
      have hle := runCounter_applyOp p .cleanupEnd
      omega
    | clearHist =>
      have h2 : runId ∈ traceIds (applyOp p .clearHist) rest := h
      have := ih _ runId h2
      have hle := runCounter_applyOp p .clearHist
      omega

/-- C9: along any trace of events on one pool, the run ids handed back by
the successful `enqueue` calls are pairwise distinct — the ids embed the
internal run counter, which never decreases under any operation and is
bumped by every successful enqueue, so identifiers stay unique even when
every enqueue observes the same wall-clock timestamp. -/
theorem run_ids_unique (P R : Type) (o : Option Int) (ops : List (PoolOp P R)) :
    (traceIds (mkTaskPool P R o) ops).Nodup ∧
    ∀ (p : TaskPool P R) (op : PoolOp P R),
      p.runCounter ≤ (applyOp p op).runCounter := by
  refine ⟨?_, runCounter_applyOp⟩
  suffices hgen : ∀ (ops1 : List (PoolOp P R)) (p : TaskPool P R),
      (traceIds p ops1).Nodup from hgen ops _
  intro ops1
  induction ops1 with
  | nil => intro p; simp [traceIds]
  | cons op rest ih =>
    intro p
    cases op with
    | enq params now =>
      rcases he : p.enqueue params now with e | pr
      · have ht : traceIds p (.enq params now :: rest) = traceIds p rest := by
          simp [traceIds, he]
        rw [ht]
        exact ih p
      · have ht : traceIds p (.enq params now :: rest) =
            pr.2 :: traceIds pr.1 rest := by
          simp [traceIds, he]
        rw [ht]
        refine List.nodup_cons.mpr ⟨?_, ih pr.1⟩
        intro hmem
        obtain ⟨hid, hcnt⟩ := enqueue_ok_counter p params now pr.1 pr.2 (by rw [he])
        have hlt := traceIds_counter_lt rest pr.1 pr.2 hmem
        rw [hid, extractCounter_generateRunId] at hlt
        omega
    | finish outcome now => exact ih _
    | start now => exact ih _
    | cleanupBegin => exact ih _
    | cleanupEnd => exact ih _
    | clearHist => exact ih _

theorem trimLoopFuel_terminates (m : Int) (hm : 0 ≤ m) :
    ∀ l : List α, trimLoopFuel m l.length l = some (trimHist m l) := by
  intro l
  induction l with
  | nil =>
    simp only [List.length_nil, trimLoopFuel]
    rw [if_neg (by omega)]
    rw [trimHist_eq_self m [] (by simp)]
  | cons a t ih =>
    simp only [List.length_cons, trimLoopFuel]
    by_cases hc : ((t.length + 1 : Nat) : Int) > m
    · rw [if_pos (by exact_mod_cast hc)]
      rw [show (a :: t).tail = t from rfl, ih]
      congr 1
      unfold trimHist
      have h1 : (a :: t).length - m.toNat = (t.length - m.toNat) + 1 := by
        simp only [List.length_cons]
        omega
      rw [h1, List.drop_succ_cons]
    · rw [if_neg (by exact_mod_cast hc)]
      rw [trimHist_eq_self m (a :: t) (by simp only [List.length_cons]; omega)]

theorem trimLoopFuel_diverges (m : Int) (hm : m < 0) :
    ∀ (fuel : Nat) (l : List α), trimLoopFuel m fuel l = none := by
  intro fuel
  induction fuel with
  | zero =>
    intro l
    simp only [trimLoopFuel]
    rw [if_pos (by omega)]
  | succ f ih =>
    intro l
    simp only [trimLoopFuel]
    rw [if_pos (by omega), ih]

/-- C10: the trimming loop of `addToHistory` terminates for every
non-negative `maxHistorySize` — fuel equal to the buffer length reaches
the exit condition and leaves exactly the push-then-evict result — while
the constructor stores any number without validation, and for a negative
`maxHistorySize` the condition `history.length > maxHistorySize` can never
become false (a shift on the empty array is a no-op), so the loop run by
the first task completion never terminates and hangs the pool. -/
theorem addToHistory_loop_termination (P R : Type) (m : Int)
    (l h : List (TaskRun P R)) (r : TaskRun P R) :
    (0 ≤ m → trimLoopFuel m l.length l = some (trimHist m l) ∧
      trimLoopFuel m (h.length + 1) (h ++ [r]) = some (addToHistory m h r)) ∧
    (m < 0 → ∀ fuel : Nat, trimLoopFuel m fuel l = none) ∧
    (mkTaskPool P R (some m)).maxHistorySize = m := by
  refine ⟨?_, ?_, rfl⟩
  · intro hm
    refine ⟨trimLoopFuel_terminates m hm l, ?_⟩
    have hterm := trimLoopFuel_terminates m hm (h ++ [r])
    rwa [List.length_append, List.length_singleton] at hterm
  · intro hm fuel
    exact trimLoopFuel_diverges m hm fuel l

/-- Witness for C10 at concrete instances: a bound of 3 terminates, a
bound of -1 spins without ever reaching the exit condition. -/
theorem addToHistory_loop_termination_witness :
    (trimLoopFuel (3 : Int) (0 + 1)
        (([] : List (TaskRun Nat Nat)) ++
          [{ id := "a", params := 1, status := .completed, result := some 2,
             queuedAt := 0 }]) =
      some (addToHistory 3 []
        { id := "a", params := 1, status := .completed, result := some 2,
          queuedAt := 0 })) ∧
    trimLoopFuel (-1 : Int) 5
        [({ id := "a", params := 1, status := .completed, result := some 2,
            queuedAt := 0 } : TaskRun Nat Nat)] = none :=
  ⟨((addToHistory_loop_termination Nat Nat 3 [] []
      { id := "a", params := 1, status := .completed, result := some 2,
        queuedAt := 0 }).1 (by decide)).2,
   (addToHistory_loop_termination Nat Nat (-1)
      [{ id := "a", params := 1, status := .completed, result := some 2,
         queuedAt := 0 }] []
      { id := "a", params := 1, status := .completed, result := some 2,
        queuedAt := 0 }).2.1 (by decide) 5⟩
